import Mathlib

/-!
# Verification of the mdcode Markdown code-block extractor

A shallow embedding of `src/main.rs` of the `mdcode` repository: the
fence-tracking state machine (`parse_blocks`, `parse_fence_start`,
`is_closing_fence`), the inline backtick-span tokenizer
(`parse_inline_blocks`), global index assignment (`collect_blocks`) and the
language / index filters (`matches_lang`, `parse_index_filter`,
`apply_index_filter`), together with the observable pipeline of `main`
(`run_main`).  Strings are modelled as `List Char`; Rust's `str::lines`
is modelled by `rustLines`.
-/

deriving instance DecidableEq for Except

/-- The backtick glyph, kept as a named constant. -/
def backtickChar : Char := Char.ofNat 96

/-- Rust `char::is_whitespace` (the Unicode White_Space property). -/
def isRustWs (c : Char) : Bool :=
  c.toNat = 0x09 || c.toNat = 0x0A || c.toNat = 0x0B || c.toNat = 0x0C ||
  c.toNat = 0x0D || c.toNat = 0x20 || c.toNat = 0x85 || c.toNat = 0xA0 ||
  c.toNat = 0x1680 || (0x2000 ≤ c.toNat && c.toNat ≤ 0x200A) ||
  c.toNat = 0x2028 || c.toNat = 0x2029 || c.toNat = 0x202F ||
  c.toNat = 0x205F || c.toNat = 0x3000

/-- Rust `str::trim_start`. -/
def trimStart (s : List Char) : List Char := s.dropWhile isRustWs

/-- Rust `str::trim_end`. -/
def trimEnd (s : List Char) : List Char := (s.reverse.dropWhile isRustWs).reverse

/-- Rust `str::trim`. -/
def rustTrim (s : List Char) : List Char := trimEnd (trimStart s)

/-- Rust `str::trim_end_matches('\n')`: all trailing newline characters
removed. -/
def trimEndNl (s : List Char) : List Char :=
  (s.reverse.dropWhile (fun c => c == '\n')).reverse

/-- Rust `str::lines`: split at `'\n'`, treating `"\r\n"` as a line ending
as well; a final line ending produces no trailing empty line. -/
def rustLines : List Char → List (List Char)
  | [] => []
  | '\r' :: '\n' :: cs => [] :: rustLines cs
  | '\n' :: cs => [] :: rustLines cs
  | c :: cs =>
    match rustLines cs with
    | [] => [[c]]
    | l :: ls => (c :: l) :: ls

/-- Length of the leading run of the character `c` in `s`
(Rust `take_while(|x| *x == c).count()`). -/
def leadingRun (c : Char) (s : List Char) : Nat :=
  (s.takeWhile (fun x => x == c)).length

/-- `enum BlockKind { Fenced, Inline }` from `main.rs`. -/
inductive BlockKind where
  | Fenced
  | Inline
deriving DecidableEq

/-- `struct InputSource { name, content }` from `main.rs`. -/
structure InputSource where
  name : List Char
  content : List Char
deriving DecidableEq

/-- `struct CodeBlock` from `main.rs`. -/
structure CodeBlock where
  index : Nat
  source : List Char
  kind : BlockKind
  lang : Option (List Char)
  start_line : Option Nat
  end_line : Option Nat
  code : List Char
deriving DecidableEq

/-- `enum IndexFilter` from `main.rs` (`end` is a reserved word in Lean, so
the range bound fields are called `start`/`stop`). -/
inductive IndexFilter where
  | Single (n : Nat)
  | Range (start : Nat) (stop : Nat)
deriving DecidableEq

/-- `enum LangSelector { All, List, Filter(String) }` from `main.rs`. -/
inductive LangSelector where
  | All
  | List
  | Filter (lang : List Char)
deriving DecidableEq

/-- `struct FenceState` from `main.rs`. -/
structure FenceState where
  fence_char : Char
  fence_len : Nat
  lang : Option (List Char)
  buffer : List Char
  start_line : Nat
deriving DecidableEq

/-- `fn parse_fence_start` from `main.rs`: a line opens a fence when, after
stripping leading whitespace, it starts with three backticks or three
tildes; the leading run is counted and the (trimmed) remainder is the
language tag, empty normalized to `none`. -/
def parse_fence_start (line : List Char) : Option (Char × Nat × Option (List Char)) :=
  let trimmed := trimStart line
  if trimmed.take 3 = [backtickChar, backtickChar, backtickChar] then
    let fence_len := leadingRun backtickChar trimmed
    let lang := rustTrim (trimmed.drop fence_len)
    some (backtickChar, fence_len, if lang = [] then none else some lang)
  else if trimmed.take 3 = ['~', '~', '~'] then
    let fence_len := leadingRun '~' trimmed
    let lang := rustTrim (trimmed.drop fence_len)
    some ('~', fence_len, if lang = [] then none else some lang)
  else
    none

/-- `fn is_closing_fence` from `main.rs`: the leading run (after stripping
leading whitespace) of the opening glyph must be at least the opening run
length and at least 3. -/
def is_closing_fence (line : List Char) (fence_char : Char) (fence_len : Nat) : Bool :=
  let prefix_len := leadingRun fence_char (trimStart line)
  decide (fence_len ≤ prefix_len ∧ 3 ≤ prefix_len)

/-- The loop body of `fn parse_inline_blocks` from `main.rs`: scan `rest`
(the still-unprocessed suffix of `line`, with `i` the position of its first
character) left to right; `start_tick`/`start_idx` hold the opening run
length and content start of a currently-open span. -/
def parse_inline_go (line : List Char) (line_no : Nat) (source : List Char) :
    List Char → Nat → Option Nat → Option Nat → List CodeBlock
  | [], _, _, _ => []
  | c :: cs, i, start_tick, start_idx =>
    if c = backtickChar then
      let tick_len := 1 + leadingRun backtickChar cs
      let rest := cs.drop (leadingRun backtickChar cs)
      match start_tick with
      | none =>
        parse_inline_go line line_no source rest (i + tick_len)
          (some tick_len) (some (i + tick_len))
      | some open_ticks =>
        if tick_len = open_ticks then
          let content_start := start_idx.getD i
          let content := (line.drop content_start).take (i - content_start)
          if content = [] then
            parse_inline_go line line_no source rest (i + tick_len) none none
          else
            { index := 0, source := source, kind := BlockKind.Inline, lang := none,
              start_line := some line_no, end_line := some line_no, code := content } ::
              parse_inline_go line line_no source rest (i + tick_len) none none
        else
          parse_inline_go line line_no source rest (i + tick_len) start_tick start_idx
    else
      parse_inline_go line line_no source cs (i + 1) start_tick start_idx
termination_by rest _ _ _ => rest.length
decreasing_by
  all_goals simp_wf
  all_goals omega

/-- `fn parse_inline_blocks` from `main.rs`. -/
def parse_inline_blocks (line : List Char) (line_no : Nat) (source : List Char) :
    List CodeBlock :=
  parse_inline_go line line_no source line 0 none none

/-- Scan state of the per-line loop in `fn parse_blocks`. -/
structure ScanState where
  blocks : List CodeBlock
  in_fence : Option FenceState
deriving DecidableEq

/-- One iteration of the per-line loop of `fn parse_blocks` from `main.rs`,
for the line `raw_line` with 1-based number `line_no`. -/
def parseLine (name : List Char) (include_inline : Bool) (st : ScanState)
    (raw_line : List Char) (line_no : Nat) : ScanState :=
  match st.in_fence with
  | some state =>
    if is_closing_fence raw_line state.fence_char state.fence_len then
      { blocks := st.blocks ++
          [{ index := 0, source := name, kind := BlockKind.Fenced, lang := state.lang,
             start_line := some state.start_line, end_line := some (line_no - 1),
             code := trimEndNl state.buffer }],
        in_fence := none }
    else
      { st with in_fence := some { state with buffer := state.buffer ++ raw_line ++ ['\n'] } }
  | none =>
    match parse_fence_start raw_line with
    | some (fence_char, fence_len, lang) =>
      { st with in_fence := some { fence_char := fence_char, fence_len := fence_len,
                                   lang := lang, buffer := [], start_line := line_no + 1 } }
    | none =>
      if include_inline then
        { st with blocks := st.blocks ++ parse_inline_blocks raw_line line_no name }
      else
        st

/-- The line loop of `fn parse_blocks`: `idx` is the 0-based index of the
previous line, so the head of the list is line `idx + 1`. -/
def scanLines (name : List Char) (include_inline : Bool) :
    ScanState → Nat → List (List Char) → ScanState
  | st, _, [] => st
  | st, idx, l :: ls =>
    scanLines name include_inline (parseLine name include_inline st l (idx + 1)) (idx + 1) ls

/-- `fn parse_blocks` from `main.rs`: run the line loop, then flush an
unterminated fence (its two `end_line` branches are identical in the
source and are kept identical here). -/
def parse_blocks (input : InputSource) (include_inline : Bool) : List CodeBlock :=
  let lines := rustLines input.content
  let st := scanLines input.name include_inline { blocks := [], in_fence := none } 0 lines
  match st.in_fence with
  | some state =>
    let end_line := if state.buffer = [] then lines.length else lines.length
    st.blocks ++
      [{ index := 0, source := input.name, kind := BlockKind.Fenced, lang := state.lang,
         start_line := some state.start_line, end_line := some end_line,
         code := trimEndNl state.buffer }]
  | none => st.blocks

/-- The `iter_mut().enumerate()` index-assignment loop of
`fn collect_blocks`: the block at offset `p` receives index `n + p`. -/
def assign_indices : Nat → List CodeBlock → List CodeBlock
  | _, [] => []
  | n, b :: bs => { b with index := n } :: assign_indices (n + 1) bs

/-- `fn collect_blocks` from `main.rs`: concatenate every input's parsed
blocks in input order, then assign global 0-based indices. -/
def collect_blocks (inputs : List InputSource) (include_inline : Bool) : List CodeBlock :=
  assign_indices 0 ((inputs.map (fun input => parse_blocks input include_inline)).flatten)

/-- ASCII lowercasing of one character (Rust `u8::to_ascii_lowercase`). -/
def asciiLower (c : Char) : Char :=
  if 'A' ≤ c ∧ c ≤ 'Z' then Char.ofNat (c.toNat + 32) else c

/-- Rust `str::eq_ignore_ascii_case`. -/
def eq_ignore_ascii_case (a b : List Char) : Bool :=
  a.map asciiLower == b.map asciiLower

/-- `fn matches_lang` from `main.rs`. -/
def matches_lang (block : CodeBlock) (lang : List Char) : Bool :=
  match block.lang with
  | some b => eq_ignore_ascii_case b lang
  | none => false

/-- The `blocks.retain(...)` step of `fn main`: only an explicit language
filter removes blocks. -/
def retain_lang (sel : LangSelector) (blocks : List CodeBlock) : List CodeBlock :=
  match sel with
  | LangSelector.Filter lang => blocks.filter (fun b => matches_lang b lang)
  | _ => blocks

/-- Message of Rust's `ParseIntError` for an empty string. -/
def emptyIntMsg : List Char := "cannot parse integer from empty string".toList

/-- Message of Rust's `ParseIntError` for a non-digit character. -/
def invalidDigitMsg : List Char := "invalid digit found in string".toList

/-- Message of Rust's `ParseIntError` for positive overflow. -/
def overflowMsg : List Char := "number too large to fit in target type".toList

/-- The error message of `fn parse_index_filter` for a reversed range. -/
def rangeErrMsg : List Char := "range start must be <= end".toList

/-- The `eprintln!` message of `fn main` when no inputs exist. -/
def noInputMsg : List Char :=
  "No input provided. Pass files or pipe markdown into stdin.".toList

/-- The `eprintln!` message of `fn main` when the block list is empty. -/
def noMatchMsg : List Char := "No matching code blocks found.".toList

/-- Value of the decimal digit list `s` (used only on all-digit lists). -/
def digitsToNat (s : List Char) : Nat :=
  s.foldl (fun a c => a * 10 + (c.toNat - 48)) 0

/-- Whether `c` is an ASCII decimal digit. -/
def isAsciiDigit (c : Char) : Bool := '0' ≤ c && c ≤ '9'

/-- Rust `str::parse::<usize>()`: an optional leading `'+'`, then a
nonempty digit string; 64-bit overflow is an error. -/
def parseUsize (s : List Char) : Except (List Char) Nat :=
  let digits := match s with
    | '+' :: rest => rest
    | _ => s
  if digits = [] then Except.error emptyIntMsg
  else if digits.all isAsciiDigit then
    let v := digitsToNat digits
    if v < 2 ^ 64 then Except.ok v else Except.error overflowMsg
  else Except.error invalidDigitMsg

/-- Rust `str::split_once(sep)`: split at the first occurrence of `sep`. -/
def splitOnce (sep : Char) : List Char → Option (List Char × List Char)
  | [] => none
  | c :: cs =>
    if c = sep then some ([], cs)
    else (splitOnce sep cs).map (fun p => (c :: p.1, p.2))

/-- `fn parse_index_filter` from `main.rs`. -/
def parse_index_filter (raw : Option (List Char)) :
    Except (List Char) (Option IndexFilter) :=
  match raw with
  | none => Except.ok none
  | some raw =>
    match splitOnce '-' raw with
    | some (a, b) =>
      match parseUsize (rustTrim a) with
      | Except.error e => Except.error e
      | Except.ok start =>
        match parseUsize (rustTrim b) with
        | Except.error e => Except.error e
        | Except.ok stop =>
          if start > stop then Except.error rangeErrMsg
          else Except.ok (some (IndexFilter.Range start stop))
    | none =>
      match parseUsize (rustTrim raw) with
      | Except.error e => Except.error e
      | Except.ok v => Except.ok (some (IndexFilter.Single v))

/-- `fn apply_index_filter` from `main.rs`. -/
def apply_index_filter (blocks : List CodeBlock) (filter : IndexFilter) : List CodeBlock :=
  match filter with
  | IndexFilter.Single n => blocks.filter (fun b => b.index == n)
  | IndexFilter.Range start stop =>
    blocks.filter (fun b => decide (start ≤ b.index) && decide (b.index ≤ stop))

/-- The block list that reaches the emptiness check of `fn main` when the
index-filter expression parsed to `f`. -/
def final_blocks (inputs : List InputSource) (include_inline : Bool)
    (sel : LangSelector) (f : Option IndexFilter) : List CodeBlock :=
  let blocks := retain_lang sel (collect_blocks inputs include_inline)
  match f with
  | some filt => apply_index_filter blocks filt
  | none => blocks

/-- The observable pipeline of `fn main` up to rendering: the no-input
check, block collection, the language retain, index-filter parsing (whose
error propagates, aborting with no block output), index filtering, and the
emptiness check.  Rendering of the surviving blocks is out of scope. -/
def run_main (inputs : List InputSource) (include_inline : Bool)
    (sel : LangSelector) (number : Option (List Char)) :
    Except (List Char) (List CodeBlock) :=
  if inputs = [] then Except.error noInputMsg
  else
    let blocks := retain_lang sel (collect_blocks inputs include_inline)
    match parse_index_filter number with
    | Except.error e => Except.error e
    | Except.ok none =>
      if blocks = [] then Except.error noMatchMsg else Except.ok blocks
    | Except.ok (some filt) =>
      let blocks := apply_index_filter blocks filt
      if blocks = [] then Except.error noMatchMsg else Except.ok blocks

/-- Body lines joined with a `'\n'` terminator each: the fence buffer that
`parse_blocks` accumulates while inside a fence. -/
def joinNl (ls : List (List Char)) : List Char :=
  (ls.map (fun l => l ++ ['\n'])).flatten

/-! ## Helper lemmas -/

theorem leadingRun_of_head_ne {g c : Char} {l rest : List Char}
    (hl : l = c :: rest) (hne : c ≠ g) : leadingRun g l = 0 := by
  subst hl
  simp [leadingRun, List.takeWhile_cons, hne]

theorem leadingRun_replicate_append {g : Char} {r : Nat} {tail : List Char}
    (h : ∀ d, tail.head? = some d → d ≠ g) :
    leadingRun g (List.replicate r g ++ tail) = r := by
  induction r with
  | zero =>
    simp only [List.replicate_zero, List.nil_append]
    cases tail with
    | nil => simp [leadingRun]
    | cons d rest =>
      have hd : d ≠ g := h d rfl
      simp [leadingRun, List.takeWhile_cons, hd]
  | succ k ih =>
    have hstep : leadingRun g (g :: (List.replicate k g ++ tail)) =
        1 + leadingRun g (List.replicate k g ++ tail) := by
      simp [leadingRun, List.takeWhile_cons]
      omega
    rw [List.replicate_succ, List.cons_append, hstep, ih]
    omega

theorem trimStart_ws_append {ws l : List Char} (h : ∀ c ∈ ws, isRustWs c = true) :
    trimStart (ws ++ l) = trimStart l := by
  induction ws with
  | nil => simp
  | cons c cs ih =>
    have hc : isRustWs c = true := h c (List.mem_cons_self c cs)
    simp only [List.cons_append, trimStart, List.dropWhile_cons, hc, if_true]
    exact ih (fun x hx => h x (List.mem_cons_of_mem c hx))

theorem trimStart_of_head_not_ws {l : List Char} {c : Char} {rest : List Char}
    (hl : l = c :: rest) (hc : isRustWs c = false) : trimStart l = l := by
  subst hl
  simp [trimStart, List.dropWhile_cons, hc]

theorem backtick_not_ws : isRustWs backtickChar = false := by decide

theorem tilde_not_ws : isRustWs '~' = false := by decide

/-! ## Claim theorems -/

/-- **C1.** While inside a fence opened with glyph `G := fs.fence_char` and
run length `L := fs.fence_len` (an opener always has `L ≥ 3`): a line whose
leading same-glyph run (after stripping leading whitespace) has length
`≥ L` closes the fence and emits the block; a line whose first
post-whitespace character is any other glyph never closes the fence,
regardless of run length, and is appended to the body; and a same-glyph
run shorter than `L` is not a close and the line is appended verbatim
(plus a line terminator) to the block body. -/
theorem mdcode_C1 (name : List Char) (incl : Bool) (bs : List CodeBlock)
    (fs : FenceState) (line : List Char) (n : Nat) (hL : 3 ≤ fs.fence_len) :
    (fs.fence_len ≤ leadingRun fs.fence_char (trimStart line) →
      is_closing_fence line fs.fence_char fs.fence_len = true ∧
      parseLine name incl ⟨bs, some fs⟩ line n =
        ⟨bs ++ [⟨0, name, BlockKind.Fenced, fs.lang, some fs.start_line, some (n - 1),
                 trimEndNl fs.buffer⟩], none⟩) ∧
    (∀ c' rest, trimStart line = c' :: rest → c' ≠ fs.fence_char →
      is_closing_fence line fs.fence_char fs.fence_len = false ∧
      parseLine name incl ⟨bs, some fs⟩ line n =
        ⟨bs, some { fs with buffer := fs.buffer ++ line ++ ['\n'] }⟩) ∧
    (leadingRun fs.fence_char (trimStart line) < fs.fence_len →
      is_closing_fence line fs.fence_char fs.fence_len = false ∧
      parseLine name incl ⟨bs, some fs⟩ line n =
        ⟨bs, some { fs with buffer := fs.buffer ++ line ++ ['\n'] }⟩) := by
  refine ⟨fun hge => ?_, fun c' rest hhd hne => ?_, fun hlt => ?_⟩
  · have hcl : is_closing_fence line fs.fence_char fs.fence_len = true := by
      simp only [is_closing_fence, decide_eq_true_eq]
      omega
    constructor
    · exact hcl
    · simp [parseLine, hcl]
  · have h0 : leadingRun fs.fence_char (trimStart line) = 0 :=
      leadingRun_of_head_ne hhd hne
    have hcl : is_closing_fence line fs.fence_char fs.fence_len = false := by
      simp only [is_closing_fence, h0, decide_eq_false_iff_not]
      omega
    constructor
    · exact hcl
    · simp [parseLine, hcl]
  · have hcl : is_closing_fence line fs.fence_char fs.fence_len = false := by
      simp only [is_closing_fence, decide_eq_false_iff_not]
      omega
    constructor
    · exact hcl
    · simp [parseLine, hcl]

/-- Witness for C1 at concrete inputs: a fence opened with three backticks
is closed by a four-backtick line, not closed by a five-tilde line, and a
two-backtick line is appended to the body. -/
theorem mdcode_C1_witness :
    (is_closing_fence "````".toList backtickChar 3 = true ∧
      parseLine "f".toList false ⟨[], some ⟨backtickChar, 3, none, "x\n".toList, 2⟩⟩
          "````".toList 3 =
        ⟨[⟨0, "f".toList, BlockKind.Fenced, none, some 2, some 2, "x".toList⟩], none⟩) ∧
    (is_closing_fence "~~~~~".toList backtickChar 3 = false ∧
      parseLine "f".toList false ⟨[], some ⟨backtickChar, 3, none, "x\n".toList, 2⟩⟩
          "~~~~~".toList 3 =
        ⟨[], some ⟨backtickChar, 3, none, ("x\n~~~~~" ++ "\n").toList, 2⟩⟩) ∧
    (is_closing_fence "``".toList backtickChar 3 = false ∧
      parseLine "f".toList false ⟨[], some ⟨backtickChar, 3, none, "x\n".toList, 2⟩⟩
          "``".toList 3 =
        ⟨[], some ⟨backtickChar, 3, none, ("x\n``" ++ "\n").toList, 2⟩⟩) := by
  have h1 := (mdcode_C1 "f".toList false []
    ⟨backtickChar, 3, none, "x\n".toList, 2⟩ "````".toList 3 (by decide)).1 (by decide)
  have h2 := ((mdcode_C1 "f".toList false []
    ⟨backtickChar, 3, none, "x\n".toList, 2⟩ "~~~~~".toList 3 (by decide)).2.1)
    '~' "~~~~".toList (by decide) (by decide)
  have h3 := ((mdcode_C1 "f".toList false []
    ⟨backtickChar, 3, none, "x\n".toList, 2⟩ "``".toList 3 (by decide)).2.2) (by decide)
  refine ⟨⟨h1.1, ?_⟩, ⟨h2.1, ?_⟩, ⟨h3.1, ?_⟩⟩
  · rw [h1.2]; decide
  · rw [h2.2]; decide
  · rw [h3.2]; decide

theorem glyph_not_ws {g : Char} (h : g = backtickChar ∨ g = '~') :
    isRustWs g = false := by
  rcases h with h | h <;> subst h <;> decide

theorem trimStart_ws_replicate {g : Char} {ws tail : List Char} {r : Nat}
    (hws : ∀ c ∈ ws, isRustWs c = true) (hg : isRustWs g = false) (hr : 0 < r) :
    trimStart (ws ++ (List.replicate r g ++ tail)) = List.replicate r g ++ tail := by
  rw [trimStart_ws_append hws]
  have hrep : List.replicate r g ++ tail = g :: (List.replicate (r - 1) g ++ tail) := by
    cases r with
    | zero => omega
    | succ k => simp [List.replicate_succ]
  exact trimStart_of_head_not_ws hrep hg

/-- **C10.** When a fence opened with glyph `G := fs.fence_char` and run
length `L := fs.fence_len` is tested against a line made of leading
whitespace, a run of `r ≥ max L 3` copies of `G`, and arbitrary trailing
text: only the leading run is examined, the line closes the fence, the
emitted block is built from the buffered body alone (the trailing text
appears in no block), and the result is identical to that for the same
line without the trailing text. -/
theorem mdcode_C10 (name : List Char) (incl : Bool) (bs : List CodeBlock)
    (fs : FenceState) (ws tail : List Char) (r n : Nat)
    (hglyph : fs.fence_char = backtickChar ∨ fs.fence_char = '~')
    (hws : ∀ c ∈ ws, isRustWs c = true)
    (htail : ∀ d, tail.head? = some d → d ≠ fs.fence_char)
    (hr3 : 3 ≤ r) (hrL : fs.fence_len ≤ r) :
    is_closing_fence (ws ++ (List.replicate r fs.fence_char ++ tail))
        fs.fence_char fs.fence_len = true ∧
    parseLine name incl ⟨bs, some fs⟩ (ws ++ (List.replicate r fs.fence_char ++ tail)) n =
      ⟨bs ++ [⟨0, name, BlockKind.Fenced, fs.lang, some fs.start_line, some (n - 1),
               trimEndNl fs.buffer⟩], none⟩ ∧
    parseLine name incl ⟨bs, some fs⟩ (ws ++ (List.replicate r fs.fence_char ++ tail)) n =
      parseLine name incl ⟨bs, some fs⟩ (ws ++ List.replicate r fs.fence_char) n := by
  have hg : isRustWs fs.fence_char = false := glyph_not_ws hglyph
  have hrun : leadingRun fs.fence_char
      (trimStart (ws ++ (List.replicate r fs.fence_char ++ tail))) = r := by
    rw [trimStart_ws_replicate hws hg (by omega)]
    exact leadingRun_replicate_append htail
  have hrun0 : leadingRun fs.fence_char
      (trimStart (ws ++ List.replicate r fs.fence_char)) = r := by
    have h := @trimStart_ws_replicate fs.fence_char ws ([] : List Char) r hws hg (by omega)
    simp only [List.append_nil] at h
    rw [h]
    have h2 := @leadingRun_replicate_append fs.fence_char r ([] : List Char)
      (fun d hd => by simp at hd)
    simpa using h2
  have hcl : is_closing_fence (ws ++ (List.replicate r fs.fence_char ++ tail))
      fs.fence_char fs.fence_len = true := by
    simp only [is_closing_fence, hrun, decide_eq_true_eq]
    omega
  have hcl0 : is_closing_fence (ws ++ List.replicate r fs.fence_char)
      fs.fence_char fs.fence_len = true := by
    simp only [is_closing_fence, hrun0, decide_eq_true_eq]
    omega
  refine ⟨hcl, ?_, ?_⟩
  · simp [parseLine, hcl]
  · simp [parseLine, hcl, hcl0]

/-- Witness for C10: inside a `~~~`-fence, the line `"  ~~~~ trailing"`
closes the fence, the trailing text is discarded, and the result equals
the one for `"  ~~~~"`. -/
theorem mdcode_C10_witness :
    is_closing_fence ("  ".toList ++ (List.replicate 4 '~' ++ " trailing".toList)) '~' 3 = true ∧
    parseLine "f".toList false ⟨[], some ⟨'~', 3, none, "b\n".toList, 5⟩⟩
        ("  ".toList ++ (List.replicate 4 '~' ++ " trailing".toList)) 7 =
      ⟨[⟨0, "f".toList, BlockKind.Fenced, none, some 5, some 6, "b".toList⟩], none⟩ ∧
    parseLine "f".toList false ⟨[], some ⟨'~', 3, none, "b\n".toList, 5⟩⟩
        ("  ".toList ++ (List.replicate 4 '~' ++ " trailing".toList)) 7 =
      parseLine "f".toList false ⟨[], some ⟨'~', 3, none, "b\n".toList, 5⟩⟩
        ("  ".toList ++ List.replicate 4 '~') 7 := by
  have h := mdcode_C10 "f".toList false [] ⟨'~', 3, none, "b\n".toList, 5⟩
    "  ".toList " trailing".toList 4 7 (Or.inr rfl) (by decide) (by decide)
    (by decide) (by decide)
  refine ⟨h.1, ?_, h.2.2⟩
  rw [h.2.1]; decide

/-- **C5.** While an inline span is open with opening tick count `t`, a
backtick run of length `r ≠ t` is not a closing delimiter: the scanner
consumes the run and continues with the open-span state unchanged (the
run neither closes the span, nor resets it, nor opens a new span), so the
run is swallowed as ordinary span content. -/
theorem mdcode_C5 (line : List Char) (line_no : Nat) (source : List Char)
    (rest₂ : List Char) (i t r : Nat) (sidx : Option Nat)
    (hr : 0 < r) (hne : r ≠ t)
    (htail : ∀ d, rest₂.head? = some d → d ≠ backtickChar) :
    parse_inline_go line line_no source (List.replicate r backtickChar ++ rest₂)
        i (some t) sidx =
      parse_inline_go line line_no source rest₂ (i + r) (some t) sidx := by
  have hrep : List.replicate r backtickChar ++ rest₂ =
      backtickChar :: (List.replicate (r - 1) backtickChar ++ rest₂) := by
    cases r with
    | zero => omega
    | succ k => simp [List.replicate_succ]
  have hrun : leadingRun backtickChar (List.replicate (r - 1) backtickChar ++ rest₂) =
      r - 1 := leadingRun_replicate_append htail
  rw [hrep, parse_inline_go, if_pos rfl]
  simp only [hrun]
  have htick : 1 + (r - 1) = r := by omega
  rw [htick, if_neg hne]
  have hdrop : (List.replicate (r - 1) backtickChar ++ rest₂).drop (r - 1) = rest₂ := by
    have h := List.drop_left (List.replicate (r - 1) backtickChar) rest₂
    simp only [List.length_replicate] at h
    exact h
  rw [hdrop]

/-- Witness for C5: with a 1-tick span open, the run in `"``b` c` d"` (two
backticks) is swallowed and scanning continues two positions later with
the same open-span state. -/
theorem mdcode_C5_witness :
    parse_inline_go "a `x``b` c` d".toList 1 "f".toList
        (List.replicate 2 backtickChar ++ "b` c` d".toList) 5 (some 1) (some 3) =
      parse_inline_go "a `x``b` c` d".toList 1 "f".toList
        "b` c` d".toList (5 + 2) (some 1) (some 3) :=
  mdcode_C5 "a `x``b` c` d".toList 1 "f".toList "b` c` d".toList 5 1 2 (some 3)
    (by decide) (by decide) (by decide)

theorem scanLines_append (name : List Char) (incl : Bool) :
    ∀ (xs ys : List (List Char)) (st : ScanState) (n : Nat),
    scanLines name incl st n (xs ++ ys) =
      scanLines name incl (scanLines name incl st n xs) (n + xs.length) ys := by
  intro xs
  induction xs with
  | nil => intro ys st n; simp [scanLines]
  | cons l ls ih =>
    intro ys st n
    simp only [List.cons_append, scanLines, List.append_eq]
    rw [ih]
    congr 1
    simp only [List.length_cons]
    omega

theorem joinNl_cons (l : List Char) (ls : List (List Char)) :
    joinNl (l :: ls) = (l ++ ['\n']) ++ joinNl ls := by
  simp [joinNl]

theorem scanLines_inFence_noClose (name : List Char) (incl : Bool) :
    ∀ (ls : List (List Char)) (bs : List CodeBlock) (fs : FenceState) (n : Nat),
    (∀ l ∈ ls, is_closing_fence l fs.fence_char fs.fence_len = false) →
    scanLines name incl ⟨bs, some fs⟩ n ls =
      ⟨bs, some { fs with buffer := fs.buffer ++ joinNl ls }⟩ := by
  intro ls
  induction ls with
  | nil => intro bs fs n _; simp [scanLines, joinNl]
  | cons l rest ih =>
    intro bs fs n h
    have hl : is_closing_fence l fs.fence_char fs.fence_len = false :=
      h l (List.mem_cons_self l rest)
    have hstep : parseLine name incl ⟨bs, some fs⟩ l (n + 1) =
        ⟨bs, some { fs with buffer := fs.buffer ++ l ++ ['\n'] }⟩ := by
      simp [parseLine, hl]
    simp only [scanLines]
    rw [hstep, ih bs { fs with buffer := fs.buffer ++ l ++ ['\n'] } (n + 1)
      (fun x hx => h x (List.mem_cons_of_mem l hx))]
    simp [joinNl_cons, List.append_assoc]

theorem mem_parse_inline_go (line : List Char) (line_no : Nat) (source : List Char) :
    ∀ (rest : List Char) (i : Nat) (start_tick start_idx : Option Nat)
      (b : CodeBlock), b ∈ parse_inline_go line line_no source rest i start_tick start_idx →
      b.kind = BlockKind.Inline ∧ b.lang = none := by
  have main : ∀ (fuel : Nat) (rest : List Char), rest.length ≤ fuel →
      ∀ (i : Nat) (start_tick start_idx : Option Nat) (b : CodeBlock),
        b ∈ parse_inline_go line line_no source rest i start_tick start_idx →
        b.kind = BlockKind.Inline ∧ b.lang = none := by
    intro fuel
    induction fuel with
    | zero =>
      intro rest hle i st si b hb
      have hnil : rest = [] := List.eq_nil_of_length_eq_zero (by omega)
      subst hnil
      simp [parse_inline_go] at hb
    | succ k ih =>
      intro rest hle i st si b hb
      match rest, hle with
      | [], _ => simp [parse_inline_go] at hb
      | c :: cs, hle =>
        rw [parse_inline_go] at hb
        have hcs : cs.length ≤ k := by
          simp only [List.length_cons] at hle
          omega
        have hdroplen : (cs.drop (leadingRun backtickChar cs)).length ≤ k := by
          have := List.length_drop (leadingRun backtickChar cs) cs
          omega
        by_cases hc : c = backtickChar
        · rw [if_pos hc] at hb
          match st with
          | none =>
            exact ih _ hdroplen _ _ _ _ hb
          | some open_ticks =>
            simp only at hb
            by_cases ht : 1 + leadingRun backtickChar cs = open_ticks
            · rw [if_pos ht] at hb
              by_cases hcont :
                  (line.drop (si.getD i)).take (i - si.getD i) = []
              · rw [if_pos hcont] at hb
                exact ih _ hdroplen _ _ _ _ hb
              · rw [if_neg hcont] at hb
                rcases List.mem_cons.mp hb with hb | hb
                · subst hb; exact ⟨rfl, rfl⟩
                · exact ih _ hdroplen _ _ _ _ hb
            · rw [if_neg ht] at hb
              exact ih _ hdroplen _ _ _ _ hb
        · rw [if_neg hc] at hb
          exact ih _ hcs _ _ _ _ hb
  intro rest
  exact main rest.length rest (Nat.le_refl _)

theorem mem_parse_inline_blocks (line : List Char) (line_no : Nat) (source : List Char)
    (b : CodeBlock) (hb : b ∈ parse_inline_blocks line line_no source) :
    b.kind = BlockKind.Inline ∧ b.lang = none :=
  mem_parse_inline_go line line_no source line 0 none none b hb

theorem scanLines_outside (name : List Char) (incl : Bool) :
    ∀ (ls : List (List Char)) (bs : List CodeBlock) (n : Nat),
    (∀ l ∈ ls, parse_fence_start l = none) →
    ∃ tl, scanLines name incl ⟨bs, none⟩ n ls = ⟨bs ++ tl, none⟩ ∧
      ∀ b ∈ tl, b.kind = BlockKind.Inline ∧ b.lang = none := by
  intro ls
  induction ls with
  | nil => intro bs n _; exact ⟨[], by simp [scanLines], by simp⟩
  | cons l rest ih =>
    intro bs n h
    have hl : parse_fence_start l = none := h l (List.mem_cons_self l rest)
    by_cases hincl : incl = true
    · have hstep : parseLine name incl ⟨bs, none⟩ l (n + 1) =
          ⟨bs ++ parse_inline_blocks l (n + 1) name, none⟩ := by
        simp [parseLine, hl, hincl]
      obtain ⟨tl, heq, hmem⟩ :=
        ih (bs ++ parse_inline_blocks l (n + 1) name) (n + 1)
          (fun x hx => h x (List.mem_cons_of_mem l hx))
      refine ⟨parse_inline_blocks l (n + 1) name ++ tl, ?_, ?_⟩
      · simp only [scanLines]
        rw [hstep, heq]
        simp [List.append_assoc]
      · intro b hb
        rcases List.mem_append.mp hb with hb | hb
        · exact mem_parse_inline_blocks l (n + 1) name b hb
        · exact hmem b hb
    · have hincl' : incl = false := by
        revert hincl; cases incl <;> simp
      have hstep : parseLine name incl ⟨bs, none⟩ l (n + 1) = ⟨bs, none⟩ := by
        simp [parseLine, hl, hincl']
      obtain ⟨tl, heq, hmem⟩ :=
        ih bs (n + 1) (fun x hx => h x (List.mem_cons_of_mem l hx))
      refine ⟨tl, ?_, hmem⟩
      simp only [scanLines]
      rw [hstep, heq]

/-- **C4, counterexample.** For the document `"```\na\n\n\n```"` the fence
body accumulated before the closing fence is `"a\n\n\n"`; stripping exactly
one trailing line terminator would store `"a\n\n"`, preserving the two
blank lines at the end of the body.  The program instead stores `"a"`:
`trim_end_matches('\n')` removes every trailing newline, so blank lines at
the end of the body are not preserved. -/
theorem mdcode_C4_counterexample :
    (parse_blocks ⟨"file.md".toList, "```\na\n\n\n```".toList⟩ false).map
        (fun b => b.code) = ["a".toList] ∧
    "a".toList ≠ ("a\n\n").toList := by
  constructor
  · decide
  · decide

/-- **C4, amended.** For every closed fence, the stored code is the
accumulated body (the body lines each followed by a line terminator) with
*all* trailing line terminators stripped: blank lines at the end of the
body are therefore dropped, while all earlier content, including interior
blank lines, is preserved exactly as accumulated. -/
theorem mdcode_C4_amended (name : List Char) (incl : Bool) (bs : List CodeBlock)
    (c : Char) (L sl n : Nat) (lg : Option (List Char))
    (body : List (List Char)) (closer : List Char)
    (hno : ∀ l ∈ body, is_closing_fence l c L = false)
    (hcl : is_closing_fence closer c L = true) :
    scanLines name incl ⟨bs, some ⟨c, L, lg, [], sl⟩⟩ n (body ++ [closer]) =
      ⟨bs ++ [⟨0, name, BlockKind.Fenced, lg, some sl, some (n + body.length),
               trimEndNl (joinNl body)⟩], none⟩ := by
  rw [scanLines_append]
  rw [scanLines_inFence_noClose name incl body bs ⟨c, L, lg, [], sl⟩ n hno]
  simp only [scanLines, parseLine, hcl, if_pos]
  simp

/-- Witness for C4 amended: a `~~~`-fence whose body is `"x"`, `""`, `""`
stores code `"x"` (the body joined as `"x\n\n\n"` with all trailing
newlines stripped). -/
theorem mdcode_C4_amended_witness :
    scanLines "f".toList false ⟨[], some ⟨'~', 3, none, [], 2⟩⟩ 1
        (["x".toList, [], []] ++ ["~~~".toList]) =
      ⟨[⟨0, "f".toList, BlockKind.Fenced, none, some 2, some (1 + 3),
         trimEndNl (joinNl ["x".toList, [], []])⟩], none⟩ := by
  have h := mdcode_C4_amended "f".toList false [] '~' 3 2 1 none
    ["x".toList, [], []] "~~~".toList (by decide) (by decide)
  simpa using h

/-- **C6.** For a document whose only fence is opened and never closed
before the end of the text (no earlier line opens a fence, no later line
closes this one), no error is raised: the scan produces exactly one fenced
block, and its `end_line` is the document's last line number. -/
theorem mdcode_C6 (input : InputSource) (incl : Bool)
    (pre post : List (List Char)) (opener : List Char)
    (c : Char) (L : Nat) (lg : Option (List Char))
    (hsplit : rustLines input.content = pre ++ opener :: post)
    (hpre : ∀ l ∈ pre, parse_fence_start l = none)
    (hopen : parse_fence_start opener = some (c, L, lg))
    (hpost : ∀ l ∈ post, is_closing_fence l c L = false) :
    ∃ b, (parse_blocks input incl).filter
        (fun b => decide (b.kind = BlockKind.Fenced)) = [b] ∧
      b.kind = BlockKind.Fenced ∧
      b.end_line = some (rustLines input.content).length := by
  obtain ⟨tl, hscan, htl⟩ := scanLines_outside input.name incl pre [] 0 hpre
  have hopenstep : parseLine input.name incl ⟨tl, none⟩ opener (pre.length + 1) =
      ⟨tl, some ⟨c, L, lg, [], pre.length + 2⟩⟩ := by
    simp [parseLine, hopen]
  have hfences : scanLines input.name incl ⟨[], none⟩ 0 (pre ++ opener :: post) =
      ⟨tl, some ⟨c, L, lg, joinNl post, pre.length + 2⟩⟩ := by
    rw [scanLines_append]
    rw [hscan]
    simp only [List.nil_append, Nat.zero_add, scanLines]
    rw [hopenstep]
    rw [scanLines_inFence_noClose input.name incl post tl
      ⟨c, L, lg, [], pre.length + 2⟩ (pre.length + 1) hpost]
    simp
  have hblocks : parse_blocks input incl =
      tl ++ [⟨0, input.name, BlockKind.Fenced, lg, some (pre.length + 2),
              some (rustLines input.content).length, trimEndNl (joinNl post)⟩] := by
    unfold parse_blocks
    rw [hsplit]
    simp only [hfences]
    simp
  refine ⟨⟨0, input.name, BlockKind.Fenced, lg, some (pre.length + 2),
           some (rustLines input.content).length, trimEndNl (joinNl post)⟩, ?_, rfl, rfl⟩
  rw [hblocks, List.filter_append]
  have htlnil : tl.filter (fun b => decide (b.kind = BlockKind.Fenced)) = [] := by
    rw [List.filter_eq_nil_iff]
    intro b hb
    have := (htl b hb).1
    simp [this]
  rw [htlnil]
  simp

/-- Witness for C6: the document `"text\n```js\nconsole"` yields exactly
one fenced block, with `end_line = 3`, the last line of the document. -/
theorem mdcode_C6_witness :
    ∃ b, (parse_blocks ⟨"f.md".toList, "text\n```js\nconsole".toList⟩ false).filter
        (fun b => decide (b.kind = BlockKind.Fenced)) = [b] ∧
      b.kind = BlockKind.Fenced ∧
      b.end_line = some (rustLines "text\n```js\nconsole".toList).length :=
  mdcode_C6 ⟨"f.md".toList, "text\n```js\nconsole".toList⟩ false
    ["text".toList] ["console".toList] "```js".toList backtickChar 3 (some "js".toList)
    (by decide) (by decide) (by decide) (by decide)

theorem assign_indices_length : ∀ (n : Nat) (l : List CodeBlock),
    (assign_indices n l).length = l.length := by
  intro n l
  induction l generalizing n with
  | nil => rfl
  | cons b bs ih => simp [assign_indices, ih]

theorem assign_indices_map_index : ∀ (n : Nat) (l : List CodeBlock),
    (assign_indices n l).map (fun b => b.index) = List.range' n l.length := by
  intro n l
  induction l generalizing n with
  | nil => rfl
  | cons b bs ih => simp [assign_indices, List.range'_succ, ih]

theorem assign_indices_getElem? : ∀ (n : Nat) (l : List CodeBlock) (p : Nat),
    (assign_indices n l)[p]? = l[p]?.map (fun b => { b with index := n + p }) := by
  intro n l
  induction l generalizing n with
  | nil => intro p; simp [assign_indices]
  | cons b bs ih =>
    intro p
    cases p with
    | zero => simp [assign_indices]
    | succ q =>
      simp only [assign_indices, List.getElem?_cons_succ]
      rw [ih (n + 1) q]
      have : n + 1 + q = n + (q + 1) := by omega
      rw [this]

theorem flatten_getElem?_sum {α : Type} : ∀ (L : List (List α)) (i : Nat)
    (hi : i < L.length) (j : Nat), j < (L.get ⟨i, hi⟩).length →
    L.flatten[(((L.take i).map List.length).sum + j)]? = (L.get ⟨i, hi⟩)[j]? := by
  intro L
  induction L with
  | nil => intro i hi; simp at hi
  | cons x rest ih =>
    intro i hi j hj
    cases i with
    | zero =>
      simp only [List.take_zero, List.map_nil, List.sum_nil, Nat.zero_add,
        List.flatten_cons, List.get_cons_zero] at hj ⊢
      exact List.getElem?_append_left hj
    | succ k =>
      have hk : k < rest.length := by
        simp only [List.length_cons] at hi
        omega
      simp only [List.take_succ_cons, List.map_cons, List.sum_cons,
        List.flatten_cons, List.get_cons_succ] at hj ⊢
      rw [List.getElem?_append_right (by omega)]
      have harith : x.length + ((rest.take k).map List.length).sum + j - x.length =
          ((rest.take k).map List.length).sum + j := by omega
      rw [harith]
      exact ih k hk j hj

/-- **C2.** Across a run over the supplied inputs, where input `i`
contributes `k_i` blocks in discovery order: the block at position `j` of
input `i` receives global index `k_0 + ... + k_(i-1) + j`, and the indices
assigned by `collect_blocks` — before any filtering — are exactly
`0 .. (sum of all k_i) - 1`, in order, with no gaps or repeats. -/
theorem mdcode_C2 (inputs : List InputSource) (incl : Bool) (i j : Nat)
    (hi : i < inputs.length)
    (hj : j < (parse_blocks (inputs.get ⟨i, hi⟩) incl).length) :
    (collect_blocks inputs incl)[(((inputs.take i).map
        (fun s => (parse_blocks s incl).length)).sum + j)]? =
      some { (parse_blocks (inputs.get ⟨i, hi⟩) incl).get ⟨j, hj⟩ with
             index := ((inputs.take i).map (fun s => (parse_blocks s incl).length)).sum + j } ∧
    (collect_blocks inputs incl).map (fun b => b.index) =
      List.range ((inputs.map (fun s => (parse_blocks s incl).length)).sum) := by
  have hmapget : (inputs.map (fun input => parse_blocks input incl)).get
      ⟨i, by simpa using hi⟩ = parse_blocks (inputs.get ⟨i, hi⟩) incl := by
    simp
  have hsum : (((inputs.map (fun input => parse_blocks input incl)).take i).map
      List.length).sum = ((inputs.take i).map (fun s => (parse_blocks s incl).length)).sum := by
    simp only [List.map_take, List.map_map]
    rfl
  constructor
  · unfold collect_blocks
    rw [assign_indices_getElem?]
    have hflat := flatten_getElem?_sum (inputs.map (fun input => parse_blocks input incl))
      i (by simpa using hi) j (by rw [hmapget]; exact hj)
    rw [hsum] at hflat
    rw [hflat, hmapget]
    rw [List.getElem?_eq_getElem hj]
    simp
  · unfold collect_blocks
    rw [assign_indices_map_index]
    rw [List.length_flatten]
    rw [List.map_map]
    have : (List.length ∘ fun input => parse_blocks input incl) =
        fun s => (parse_blocks s incl).length := rfl
    rw [this, List.range_eq_range']

/-- Witness for C2 at two concrete documents: the block at position 0 of
document 1 receives index `k_0 + 0 = 1`, and the assigned indices are
exactly `0, 1`. -/
theorem mdcode_C2_witness :
    (collect_blocks [⟨"a.md".toList, "```txt\na\n```\n".toList⟩,
        ⟨"b.md".toList, "```\nb\n```".toList⟩] false)[
      ((([⟨"a.md".toList, "```txt\na\n```\n".toList⟩,
          ⟨"b.md".toList, "```\nb\n```".toList⟩] : List InputSource).take 1).map
        (fun s => (parse_blocks s false).length)).sum + 0]? =
      some { (parse_blocks (([⟨"a.md".toList, "```txt\na\n```\n".toList⟩,
              ⟨"b.md".toList, "```\nb\n```".toList⟩] : List InputSource).get
                ⟨1, by decide⟩) false).get ⟨0, by decide⟩ with
             index := ((([⟨"a.md".toList, "```txt\na\n```\n".toList⟩,
                ⟨"b.md".toList, "```\nb\n```".toList⟩] : List InputSource).take 1).map
                  (fun s => (parse_blocks s false).length)).sum + 0 } ∧
    (collect_blocks [⟨"a.md".toList, "```txt\na\n```\n".toList⟩,
        ⟨"b.md".toList, "```\nb\n```".toList⟩] false).map (fun b => b.index) =
      List.range ((([⟨"a.md".toList, "```txt\na\n```\n".toList⟩,
          ⟨"b.md".toList, "```\nb\n```".toList⟩] : List InputSource).map
            (fun s => (parse_blocks s false).length)).sum) :=
  mdcode_C2 [⟨"a.md".toList, "```txt\na\n```\n".toList⟩,
    ⟨"b.md".toList, "```\nb\n```".toList⟩] false 1 0 (by decide) (by decide)

theorem collect_blocks_index_nodup (inputs : List InputSource) (incl : Bool) :
    ((collect_blocks inputs incl).map (fun b => b.index)).Nodup := by
  unfold collect_blocks
  rw [assign_indices_map_index]
  exact List.nodup_range' _ _

theorem retain_lang_sublist (sel : LangSelector) (l : List CodeBlock) :
    (retain_lang sel l).Sublist l := by
  cases sel with
  | Filter lang => exact List.filter_sublist l
  | All => exact List.Sublist.refl l
  | List => exact List.Sublist.refl l

theorem filter_index_length_le_one (l : List CodeBlock) (n : Nat)
    (h : (l.map (fun b => b.index)).Nodup) :
    (l.filter (fun b => b.index == n)).length ≤ 1 := by
  induction l with
  | nil => simp
  | cons b bs ih =>
    simp only [List.map_cons, List.nodup_cons] at h
    by_cases hb : b.index == n
    · have hbn : b.index = n := by simpa using hb
      have hnil : bs.filter (fun x => x.index == n) = [] := by
        rw [List.filter_eq_nil_iff]
        intro x hx hxn
        have hxn' : x.index = n := by simpa using hxn
        exact h.1 (List.mem_map.mpr ⟨x, hx, by omega⟩)
      simp [List.filter_cons, hb, hnil]
    · rw [List.filter_cons, if_neg hb]
      exact ih h.2

/-- **C3.** Against the pipeline's block lists (global indices assigned by
`collect_blocks`, optionally thinned by the language filter first):
filtering by a single index `n` returns at most one block, and every
returned block has `index = n` and is one of the pre-filter blocks;
filtering by a range `[s, e]` returns exactly the blocks whose pre-filter
global index lies in `[s, e]` among the language-filtered list; and the
language filter passes blocks through unchanged (so the index filter
always refers to the pre-filter global numbering, never to positions
inside the language-filtered subset). -/
theorem mdcode_C3 (inputs : List InputSource) (incl : Bool) (sel : LangSelector)
    (n s e : Nat) (_hse : s ≤ e) :
    (apply_index_filter (retain_lang sel (collect_blocks inputs incl))
        (IndexFilter.Single n)).length ≤ 1 ∧
    (∀ b ∈ apply_index_filter (retain_lang sel (collect_blocks inputs incl))
        (IndexFilter.Single n), b.index = n ∧ b ∈ collect_blocks inputs incl) ∧
    (∀ b, b ∈ apply_index_filter (retain_lang sel (collect_blocks inputs incl))
        (IndexFilter.Range s e) ↔
      b ∈ retain_lang sel (collect_blocks inputs incl) ∧ s ≤ b.index ∧ b.index ≤ e) ∧
    (∀ b ∈ retain_lang sel (collect_blocks inputs incl), b ∈ collect_blocks inputs incl) := by
  have hsub := retain_lang_sublist sel (collect_blocks inputs incl)
  have hnodup : ((retain_lang sel (collect_blocks inputs incl)).map
      (fun b => b.index)).Nodup :=
    (collect_blocks_index_nodup inputs incl).sublist (hsub.map (fun b => b.index))
  refine ⟨?_, ?_, ?_, ?_⟩
  · exact filter_index_length_le_one _ n hnodup
  · intro b hb
    simp only [apply_index_filter, List.mem_filter] at hb
    exact ⟨by simpa using hb.2, hsub.mem hb.1⟩
  · intro b
    simp only [apply_index_filter, List.mem_filter]
    simp
  · intro b hb
    exact hsub.mem hb

/-- Witness for C3 at a concrete pipeline: three blocks, language filter
`"txt"`, single index 1, range `[0, 1]`. -/
theorem mdcode_C3_witness :
    (apply_index_filter (retain_lang (LangSelector.Filter "txt".toList)
        (collect_blocks [⟨"a.md".toList, "```txt\na\n```\n```rs\nb\n```\n```txt\nc\n```".toList⟩]
          false)) (IndexFilter.Single 1)).length ≤ 1 ∧
    ((⟨2, "a.md".toList, BlockKind.Fenced, some "txt".toList, some 8, some 8,
       "c".toList⟩ : CodeBlock) ∈
      apply_index_filter (retain_lang (LangSelector.Filter "txt".toList)
        (collect_blocks [⟨"a.md".toList, "```txt\na\n```\n```rs\nb\n```\n```txt\nc\n```".toList⟩]
          false)) (IndexFilter.Range 0 1) ↔
      (⟨2, "a.md".toList, BlockKind.Fenced, some "txt".toList, some 8, some 8,
        "c".toList⟩ : CodeBlock) ∈
        retain_lang (LangSelector.Filter "txt".toList)
          (collect_blocks [⟨"a.md".toList, "```txt\na\n```\n```rs\nb\n```\n```txt\nc\n```".toList⟩]
            false) ∧ 0 ≤ (2 : Nat) ∧ (2 : Nat) ≤ 1) := by
  have h := mdcode_C3 [⟨"a.md".toList, "```txt\na\n```\n```rs\nb\n```\n```txt\nc\n```".toList⟩]
    false (LangSelector.Filter "txt".toList) 1 0 1 (by decide)
  exact ⟨h.1, h.2.2.1 ⟨2, "a.md".toList, BlockKind.Fenced, some "txt".toList, some 8, some 8,
    "c".toList⟩⟩

/-- **C7.** The language tag of a fence opener is stored raw (the trimmed
remainder of the opening line, case untouched) and normalization happens
at match time: `matches_lang` succeeds exactly when the stored tag equals
the requested one up to ASCII case; inline blocks never carry a language
tag; and a closing fence copies the opener's stored tag unchanged into the
emitted block. -/
theorem mdcode_C7 :
    (∀ line c L tag, parse_fence_start line = some (c, L, some tag) →
      tag = rustTrim ((trimStart line).drop L) ∧ tag ≠ []) ∧
    (∀ b l, matches_lang b l = true ↔
      ∃ t, b.lang = some t ∧ t.map asciiLower = l.map asciiLower) ∧
    (∀ line line_no src b, b ∈ parse_inline_blocks line line_no src → b.lang = none) ∧
    (∀ name incl st fs line n, st.in_fence = some fs →
      is_closing_fence line fs.fence_char fs.fence_len = true →
      ∃ b, (parseLine name incl st line n).blocks = st.blocks ++ [b] ∧
        b.lang = fs.lang) := by
  refine ⟨?_, ?_, ?_, ?_⟩
  · intro line c L tag h
    simp only [parse_fence_start] at h
    by_cases h1 : List.take 3 (trimStart line) = [backtickChar, backtickChar, backtickChar]
    · rw [if_pos h1] at h
      by_cases h2 : rustTrim (List.drop (leadingRun backtickChar (trimStart line))
          (trimStart line)) = []
      · rw [if_pos h2] at h
        simp at h
      · rw [if_neg h2] at h
        simp only [Option.some.injEq, Prod.mk.injEq] at h
        obtain ⟨-, hL, htag⟩ := h
        subst hL
        exact ⟨htag.symm, fun heq => h2 (htag.trans heq)⟩
    · rw [if_neg h1] at h
      by_cases h1b : List.take 3 (trimStart line) = ['~', '~', '~']
      · rw [if_pos h1b] at h
        by_cases h2 : rustTrim (List.drop (leadingRun '~' (trimStart line))
            (trimStart line)) = []
        · rw [if_pos h2] at h
          simp at h
        · rw [if_neg h2] at h
          simp only [Option.some.injEq, Prod.mk.injEq] at h
          obtain ⟨-, hL, htag⟩ := h
          subst hL
          exact ⟨htag.symm, fun heq => h2 (htag.trans heq)⟩
      · rw [if_neg h1b] at h
        exact absurd h (by simp)
  · intro b l
    cases hb : b.lang with
    | none => simp [matches_lang, hb]
    | some t => simp [matches_lang, hb, eq_ignore_ascii_case]
  · intro line line_no src b hb
    exact (mem_parse_inline_blocks line line_no src b hb).2
  · intro name incl st fs line n hst hcl
    refine ⟨⟨0, name, BlockKind.Fenced, fs.lang, some fs.start_line, some (n - 1),
             trimEndNl fs.buffer⟩, ?_, rfl⟩
    simp [parseLine, hst, hcl]

/-- Witness for C7: the opener `"``` Rust "` stores the raw tag `"Rust"`;
that block then matches a `"rust"` request case-insensitively; and a
closing tilde line copies the opener's tag `"Py"` into the block. -/
theorem mdcode_C7_witness :
    ("Rust".toList = rustTrim ((trimStart "``` Rust ".toList).drop 3) ∧
      "Rust".toList ≠ []) ∧
    matches_lang ⟨0, "f".toList, BlockKind.Fenced, some "Rust".toList, none, none, []⟩
      "rust".toList = true ∧
    (∃ b, (parseLine "f".toList false
        ⟨[], some ⟨'~', 3, some "Py".toList, "a\n".toList, 2⟩⟩ "~~~".toList 3).blocks =
      [] ++ [b] ∧ b.lang = some "Py".toList) := by
  refine ⟨mdcode_C7.1 "``` Rust ".toList backtickChar 3 "Rust".toList (by decide),
    ?_, mdcode_C7.2.2.2 "f".toList false ⟨[], some ⟨'~', 3, some "Py".toList, "a\n".toList, 2⟩⟩
      ⟨'~', 3, some "Py".toList, "a\n".toList, 2⟩ "~~~".toList 3 rfl (by decide)⟩
  exact (mdcode_C7.2.1 ⟨0, "f".toList, BlockKind.Fenced, some "Rust".toList, none, none, []⟩
    "rust".toList).mpr ⟨"Rust".toList, rfl, by decide⟩

/-- **C8.** An index-filter expression that splits at `'-'` into two valid
numbers with `start > end` makes `parse_index_filter` fail with the
configuration error `"range start must be <= end"`; `run_main` then fails
with that error for *every* input set (the error does not depend on the
blocks, so it precedes any observable filtering), and no block output is
ever produced. -/
theorem mdcode_C8 (raw a b : List Char) (s e : Nat)
    (hsplit : splitOnce '-' raw = some (a, b))
    (hs : parseUsize (rustTrim a) = Except.ok s)
    (he : parseUsize (rustTrim b) = Except.ok e)
    (hlt : e < s) :
    parse_index_filter (some raw) = Except.error rangeErrMsg ∧
    (∀ inputs incl sel, inputs ≠ [] →
      run_main inputs incl sel (some raw) = Except.error rangeErrMsg) ∧
    (∀ inputs incl sel r, run_main inputs incl sel (some raw) ≠ Except.ok r) := by
  have hpf : parse_index_filter (some raw) = Except.error rangeErrMsg := by
    simp only [parse_index_filter, hsplit, hs, he]
    rw [if_pos hlt]
  have hrun : ∀ inputs incl sel, inputs ≠ [] →
      run_main inputs incl sel (some raw) = Except.error rangeErrMsg := by
    intro inputs incl sel hne
    unfold run_main
    rw [if_neg hne]
    simp only [hpf]
  refine ⟨hpf, hrun, ?_⟩
  intro inputs incl sel r h
  by_cases hne : inputs = []
  · subst hne
    simp [run_main] at h
  · rw [hrun inputs incl sel hne] at h
    simp at h

/-- Witness for C8: the expression `"4-2"` is rejected with the range
error, and the whole run fails with it on a concrete input. -/
theorem mdcode_C8_witness :
    parse_index_filter (some "4-2".toList) = Except.error rangeErrMsg ∧
    run_main [⟨"a.md".toList, "```\nx\n```".toList⟩] false LangSelector.All
      (some "4-2".toList) = Except.error rangeErrMsg := by
  have h := mdcode_C8 "4-2".toList "4".toList "2".toList 4 2
    (by decide) (by decide) (by decide) (by decide)
  exact ⟨h.1, h.2.1 [⟨"a.md".toList, "```\nx\n```".toList⟩] false LangSelector.All
    (by decide)⟩

/-- **C9, counterexample.** The two conditions the claim wants observably
distinct produce the *same* failure message: a document with no code
blocks at all, and a document whose only block is removed by the language
filter, both make `run_main` fail with `"No matching code blocks
found."`. -/
theorem mdcode_C9_counterexample :
    run_main [⟨"a.md".toList, "just prose, no code".toList⟩] false
      LangSelector.All none = Except.error noMatchMsg ∧
    run_main [⟨"b.md".toList, "```rust\nx\n```".toList⟩] false
      (LangSelector.Filter "python".toList) none = Except.error noMatchMsg := by
  constructor
  · decide
  · decide

/-- **C9, amended.** Whenever inputs exist and the block list is empty at
the emptiness check — whether because no blocks existed at all or because
filtering removed them all — `run_main` fails with the single message
`"No matching code blocks found."`; only the no-input-at-all condition
carries a different message. -/
theorem mdcode_C9_amended (inputs : List InputSource) (incl : Bool)
    (sel : LangSelector) (num : Option (List Char)) (f : Option IndexFilter)
    (hne : inputs ≠ [])
    (hok : parse_index_filter num = Except.ok f)
    (hempty : final_blocks inputs incl sel f = []) :
    run_main inputs incl sel num = Except.error noMatchMsg ∧
    noMatchMsg ≠ noInputMsg := by
  refine ⟨?_, by decide⟩
  unfold run_main
  rw [if_neg hne]
  simp only [hok]
  cases f with
  | none =>
    simp only [final_blocks] at hempty
    simp [hempty]
  | some filt =>
    simp only [final_blocks] at hempty
    simp [hempty]

/-- Witness for C9 amended: a concrete document with no blocks yields the
`"No matching code blocks found."` failure. -/
theorem mdcode_C9_amended_witness :
    run_main [⟨"a.md".toList, "hello".toList⟩] false LangSelector.All none =
      Except.error noMatchMsg ∧ noMatchMsg ≠ noInputMsg :=
  mdcode_C9_amended [⟨"a.md".toList, "hello".toList⟩] false LangSelector.All none none
    (by decide) rfl (by decide)
